import Mathlib

/-!
Shallow embedding of the `reducer-redux` library.

Two generations of the library live in the repository:
* the Matcher combinator library (`src/reducer.js`, final version, exercised by
  `test/reducer.test.js`): `match`, `match.first`, `match.always`,
  `match.withDefault`, `match.shape`, `match.object`, `match.actionCondition`,
  `match.plainActionCondition`, `match.plainAction`, `match.redux`;
* the tree-dispatch utilities: `findReducer`, `reducer`, `compose`,
  `combineReducers`.

JS values are modelled by `JVal` (a JSON-like fragment: undefined, numbers,
strings, booleans, plain objects as ordered association lists).  Exotic host
behaviours (boxed-primitive properties such as string indices, prototype
chains) are outside the model; property access on a non-object value yields
`undefined`, exactly as the library's own test-suite exercises it.  Conditions
and transforms ("reducers") are modelled as Lean functions over argument
lists, matching the variadic JS calling convention: `args[0]` is the state.
Thrown JS errors are modelled with `Except`.
-/

/-- A JS value: `undefined`, a number, a string, a boolean, or a plain object
given as an ordered association list of fields (JS objects preserve insertion
order and have no duplicate keys). -/
inductive JVal where
  | undefined : JVal
  | num (n : Int) : JVal
  | str (s : String) : JVal
  | bool (b : Bool) : JVal
  | obj (fields : List (String × JVal)) : JVal

/-- `util.isUndefined`: tests whether a value is `undefined`. -/
def isUndefined : JVal → Bool
  | .undefined => true
  | _ => false

mutual

/-- Ramda's `R.equals` restricted to the modelled JSON fragment: structural
equality (numbers, strings, booleans, `undefined`, and objects field by
field).  `R.equals` compares objects by key set, ignoring insertion order; the
theorems below only ever apply `jeq` with primitive leaves, where the two
notions coincide, so the order-sensitive object case is never relied upon. -/
def jeq : JVal → JVal → Bool
  | .undefined, .undefined => true
  | .num a, .num b => a == b
  | .str a, .str b => a == b
  | .bool a, .bool b => a == b
  | .obj xs, .obj ys => jeqFields xs ys
  | _, _ => false

/-- Field-list equality used by `jeq` on objects. -/
def jeqFields : List (String × JVal) → List (String × JVal) → Bool
  | [], [] => true
  | (k, v) :: xs, (k', v') :: ys => k == k' && jeq v v' && jeqFields xs ys
  | _, _ => false

end

/-- JS truthiness: `undefined`, `false`, `0` and `""` are falsy; every other
value in the model (including every object) is truthy. -/
def truthy : JVal → Bool
  | .undefined => false
  | .num n => n != 0
  | .str s => s ≠ ""
  | .bool b => b
  | .obj _ => true

/-- JS property access `v[k]` for the modelled fragment: field lookup on an
object (first binding wins), `undefined` on any non-object. -/
def jget : JVal → String → JVal
  | .obj fields, k => ((fields.lookup k).getD .undefined)
  | _, _ => .undefined

/-- JS `a && b`: returns `a` when `a` is falsy, otherwise `b`. -/
def jand (a b : JVal) : JVal := if truthy a then b else a

/-- A variadic JS function over modelled values: receives the full argument
list and returns a value. -/
abbrev JFun := List JVal → JVal

/-- `R.identity` as a variadic JS function: returns the first argument
(`undefined` when called with no arguments). -/
def jsIdentity : JFun := fun args => args.headD .undefined

/-- The Matcher data (`src/reducer.js`, `Matcher`): the `{ condition, reducer }`
pair stored in the `privates` WeakMap.  The callable behaviour of a Matcher is
`matcherCall`. -/
structure Matcher where
  condition : JFun
  reducer : JFun

/-- Calling a Matcher (`src/reducer.js` line 249:
`R.ifElse(condition, reducer, R.identity)`): evaluate the condition on all
arguments; if truthy apply the reducer to the same arguments, otherwise return
the first argument (`R.identity`). -/
def matcherCall (m : Matcher) (args : List JVal) : JVal :=
  if truthy (m.condition args) then m.reducer args else jsIdentity args

/-- A Matcher's `.with` (`src/reducer.js` line 250:
`reduce.with = childReducer => Matcher(condition, childReducer)`): a new
Matcher with the same condition and the supplied reducer. -/
def matcherWith (m : Matcher) (childReducer : JFun) : Matcher :=
  { condition := m.condition, reducer := childReducer }

/-- A JS value that may be passed as a condition: either a function or a
non-function data value.  (`typeof c === 'function'` distinguishes the two.) -/
inductive CondVal where
  | fn (f : JFun) : CondVal
  | val (v : JVal) : CondVal

/-- The library entry point `match` (`src/reducer.js` lines 280-283):
`preconditions (must(util.isFunction, 'argument must be a function'))
(condition => Matcher(condition))`.  It throws unless the argument is a
function, and builds a Matcher whose reducer defaults to `R.identity`. -/
def matchM : CondVal → Except Unit Matcher
  | .fn f => .ok { condition := f, reducer := jsIdentity }
  | .val _ => .error ()

/-- `match.always` (`src/reducer.js` line 307-309): a Matcher whose condition
is `R.T` (constant true). -/
def matchAlways (reducer : JFun) : Matcher :=
  { condition := fun _ => .bool true, reducer := reducer }

/-- The transform built by `match.first` (`src/reducer.js` lines 292-304):
`R.find` the first Matcher whose condition is truthy on the call arguments;
if one is found, call that Matcher itself with the same arguments, otherwise
return the first argument (`R.always(state)`). -/
def firstTransform (reducers : List Matcher) : JFun := fun args =>
  match reducers.find? (fun m => truthy (m.condition args)) with
  | some m => matcherCall m args
  | none => args.headD .undefined

/-- `match.first` (`src/reducer.js` lines 287-304): wraps `firstTransform` in
a Matcher with the constant-true condition `R.T`. -/
def matchFirst (reducers : List Matcher) : Matcher :=
  { condition := fun _ => .bool true, reducer := firstTransform reducers }

/-- `match.withDefault` (`src/reducer.js` lines 312-316):
`R.ifElse(state => util.isUndefined(state), () => defaultValue, matcher)`.
The predicate is unary, so only the first argument is inspected. -/
def withDefault (defaultValue : JVal) (matcher : Matcher) : JFun := fun args =>
  if isUndefined (args.headD .undefined) then defaultValue else matcherCall matcher args

/-- Instrumented model of Ramda's `R.find` as used by `firstTransform`: walks
the list left to right, evaluating each Matcher's condition on `args` until
one is truthy.  Returns the zero-based index and Matcher of the first hit (or
`none`), together with the number of conditions that were evaluated. -/
def findM : List Matcher → List JVal → Option (Nat × Matcher) × Nat
  | [], _ => (none, 0)
  | m :: rest, args =>
    if truthy (m.condition args) then (some (0, m), 1)
    else (((findM rest args).1.map fun p => (p.1 + 1, p.2)), (findM rest args).2 + 1)

theorem findM_fst_eq_find? (ms : List Matcher) (args : List JVal) :
    ((findM ms args).1.map Prod.snd) = ms.find? (fun m => truthy (m.condition args)) := by
  induction ms with
  | nil => simp [findM]
  | cons m rest ih =>
    by_cases h : truthy (m.condition args)
    · simp [findM, h, List.find?]
    · simp only [findM, h, if_false, List.find?, Bool.false_eq_true]
      rw [← ih]
      cases (findM rest args).1 <;> simp

theorem findM_index_spec (ms : List Matcher) (args : List JVal) :
    ∀ i m, (findM ms args).1 = some (i, m) →
      ms[i]? = some m ∧ truthy (m.condition args) = true ∧
      (∀ j, j < i → ∃ m', ms[j]? = some m' ∧ truthy (m'.condition args) = false) ∧
      (findM ms args).2 = i + 1 := by
  induction ms with
  | nil => intro i m h; simp [findM] at h
  | cons m0 rest ih =>
    intro i m h
    by_cases h0 : truthy (m0.condition args)
    · simp only [findM, h0, if_true] at h
      obtain ⟨hi, hm⟩ := Prod.mk.injEq .. ▸ Option.some.inj h
      subst hi; subst hm
      exact ⟨by simp, h0, fun j hj => absurd hj (by omega), by simp [findM, h0]⟩
    · simp only [findM, h0, if_false] at h
      rcases hfind : (findM rest args).1 with _ | ⟨i', m'⟩
      · rw [hfind] at h; simp at h
      · rw [hfind] at h
        simp only [Option.map_some'] at h
        obtain ⟨hi, hm⟩ := Prod.mk.injEq .. ▸ Option.some.inj h
        obtain ⟨hget, htrue, hbefore, hcount⟩ := ih i' m' hfind
        subst hm
        refine ⟨by rw [← hi]; simpa using hget, htrue, ?_, ?_⟩
        · intro j hj
          rcases j with _ | j'
          · exact ⟨m0, by simp, by simpa using h0⟩
          · obtain ⟨m'', hm'', hf⟩ := hbefore j' (by omega)
            exact ⟨m'', by simpa using hm'', hf⟩
        · simp [findM, h0, hfind, ← hi, hcount]

theorem findM_none_spec (ms : List Matcher) (args : List JVal) :
    (findM ms args).1 = none →
      ∀ m ∈ ms, truthy (m.condition args) = false := by
  induction ms with
  | nil => intro _ m hm; simp at hm
  | cons m0 rest ih =>
    intro h m hm
    by_cases h0 : truthy (m0.condition args)
    · simp [findM, h0] at h
    · simp only [findM, h0, if_false] at h
      rcases hfind : (findM rest args).1 with _ | p
      · rcases List.mem_cons.mp hm with hm' | hm'
        · subst hm'; simpa using h0
        · exact ih hfind m hm'
      · rw [hfind] at h; simp at h

/-- A condition as accepted by `match.shape` / `match.actionCondition`
(`src/reducer.js` lines 320, 327-333): either a predicate function or a plain
object whose leaves are unary predicates (the `R.where` form). -/
inductive SCond where
  | fn (f : JVal → JVal) : SCond
  | obj (spec : List (String × (JVal → JVal))) : SCond

/-- `match.shape` (`src/reducer.js` line 320): `R.when(util.isPlainObject,
R.where)`.  A function condition is returned unchanged; a plain object becomes
the `R.where` predicate: every leaf predicate, applied to the corresponding
field of the tested value, must be truthy. -/
def shape : SCond → JVal → JVal
  | .fn f, a => f a
  | .obj spec, a => .bool (spec.all fun p => truthy (p.2 (jget a p.1)))

/-- `match.object` (`src/reducer.js` line 323): `R.when(util.isPlainObject,
R.whereEq)` applied to a plain-object condition: every key of the spec must be
present on the tested value with an `R.equals`-equal value; extra keys of the
tested value are ignored. -/
def whereEq (spec : List (String × JVal)) (a : JVal) : JVal :=
  .bool (spec.all fun p => jeq (jget a p.1) p.2)

/-- `match.actionCondition` (`src/reducer.js` lines 327-333):
`R.pipe(R.nthArg(1), getConditionPredicate(condition))` with `match.shape` —
a variadic condition that applies `shape` to the second call argument only
(`undefined` when fewer than two arguments are supplied). -/
def actionCondition (c : SCond) : JFun := fun args =>
  shape c (args.getD 1 .undefined)

/-- `match.plainActionCondition` (`src/reducer.js` line 337): like
`actionCondition` but with `match.object` (exact matching) on a plain-object
spec. -/
def plainActionCondition (spec : List (String × JVal)) : JFun := fun args =>
  whereEq spec (args.getD 1 .undefined)

/-- `match.plainAction` (`src/reducer.js` line 340):
`R.pipe(match.plainActionCondition, match)` — the condition is a function, so
`match` accepts it and pairs it with the default identity reducer. -/
def plainAction (spec : List (String × JVal)) : Matcher :=
  { condition := plainActionCondition spec, reducer := jsIdentity }

/-- An argument to `.with(...)` on a `match.redux` Matcher: either a plain
function or an existing Matcher (`isFunctionOrMatcher`,
`src/reducer.js` line 266). -/
inductive TransformOrMatcher where
  | fn (f : JFun) : TransformOrMatcher
  | matcher (m : Matcher) : TransformOrMatcher

/-- `convertToMatcher` (`src/reducer.js` lines 343-345): promotes a plain
function via `match.always`; keeps a Matcher as is. -/
def convertToMatcher : TransformOrMatcher → Matcher
  | .fn f => matchAlways f
  | .matcher m => m

/-- `getMatcherFromReducers` (`src/reducer.js` lines 349-354): converts every
argument to a Matcher and combines them with `match.first`. -/
def getMatcherFromReducers (ts : List TransformOrMatcher) : Matcher :=
  matchFirst (ts.map convertToMatcher)

/-- `match.redux(c)` before `.with` is called (`src/reducer.js` lines
360-371): `match(match.actionCondition(c))` copied through `ofMatcher` — a
Matcher with condition `actionCondition c` and the default identity reducer. -/
def reduxMatcher (c : SCond) : Matcher :=
  { condition := actionCondition c, reducer := jsIdentity }

/-- `match.redux(c).with(...ts)` (`src/reducer.js` line 369:
`util.defineProperty('with', R.pipe(getMatcherFromReducers, matcher.with))`):
the transforms are combined with `getMatcherFromReducers` and the resulting
`first`-Matcher (used as a callable) becomes the reducer of a Matcher with the
same outer condition. -/
def reduxWith (c : SCond) (ts : List TransformOrMatcher) : Matcher :=
  matcherWith (reduxMatcher c) (matcherCall (getMatcherFromReducers ts))

/-- The per-slice reducer signature taken by `combineReducers`
(`src/src/reducer.js` lines 198-205): `(slice, action, entireState)`. -/
abbrev SliceReducer := JVal → JVal → JVal → JVal

/-- Keys of an object value, in order; `[]` for non-objects. -/
def jkeys : JVal → List String
  | .obj fields => fields.map Prod.fst
  | _ => []

/-- `combineReducers` (`src/src/reducer.js` lines 213-235).  A falsy mapping
(modelled `none`) throws (`'You must supply reducers to combineReducers()'`,
the `MissingReducers` failure).  Otherwise `_.mapValues` builds an object with
exactly the mapping's keys, calling each reducer with
`(state && state[key], action, state)`. -/
def combineReducers (reducers : Option (List (String × SliceReducer))) :
    Except Unit (JVal → JVal → JVal) :=
  match reducers with
  | none => .error ()
  | some m => .ok fun state action =>
      .obj (m.map fun p => (p.1, p.2 (jand state (jget state p.1)) action state))

mutual

/-- A reducer-tree node (`src/src/reducer.js` lines 3-47): either a reducer
function leaf (identified by a number, since only identity of the returned
function matters to `findReducer`) or a plain object of entries. -/
inductive RTree where
  | func (id : Nat) : RTree
  | obj (es : REntries) : RTree

/-- The ordered own-key entries of a tree node (JS objects iterate string keys
in insertion order and have no duplicates). -/
inductive REntries where
  | nil : REntries
  | cons (k : String) (t : RTree) (rest : REntries) : REntries

end

/-- The action as seen by the tree dispatcher: a finite map from property name
to property value (the value is used as an object key, hence a string).
`none` models an `undefined` (or `null`) action, whose property reads throw. -/
abbrev ActionMap := List (String × String)

/-- Errors thrown by `findReducer`: the ambiguity error
(`'More than one reducer matches this action.'`, line 79) and the host
TypeError raised by `action[key]` when the action is `undefined`. -/
inductive JErr where
  | ambiguous : JErr
  | typeError : JErr
deriving DecidableEq

mutual

/-- `findReducer` (`src/src/reducer.js` lines 48-87).  A function node is
returned at once.  Otherwise the keys whose action value exists and leads to
an entry of the keyed sub-node are recursed into (`matchesCurrentLevel` /
`recursiveMatches`, with `_.compact` dropping `undefined` results); more than
one collected result throws the ambiguity error, none yields `undefined`
(`Except.ok none`), exactly one is returned.  With an `undefined` action and a
non-empty object node, the first filter step reads `action[key]` and throws a
TypeError.  The two JS phases (filter all keys, then recurse) are fused here;
this is sound because the filter step is pure whenever the action is an
object, and throws on its very first key otherwise. -/
def findReducer : RTree → Option ActionMap → Except JErr (Option Nat)
  | .func i, _ => .ok (some i)
  | .obj es, none =>
    match es with
    | .nil => .ok none
    | .cons _ _ _ => .error .typeError
  | .obj es, some m =>
    match goEntries es m with
    | .error e => .error e
    | .ok results =>
      if 1 < results.length then .error .ambiguous else .ok results.head?

/-- One level of `findReducer`'s filter-and-recurse over the node's entries:
for each key shared with the action whose sub-node has an entry at the
action's value, recurse and collect the (compacted) results in key order. -/
def goEntries : REntries → ActionMap → Except JErr (List Nat)
  | .nil, _ => .ok []
  | .cons k sub rest, m =>
    match m.lookup k with
    | none => goEntries rest m
    | some av =>
      match goInner sub av m with
      | .error e => .error e
      | .ok l =>
        match goEntries rest m with
        | .error e => .error e
        | .ok ls => .ok (l ++ ls)

/-- `reducerTree[key][actionValue]`: a function sub-node has no properties
(`undefined`, so the key is filtered out); an object sub-node is searched for
the action value. -/
def goInner : RTree → String → ActionMap → Except JErr (List Nat)
  | .func _, _, _ => .ok []
  | .obj es, av, m => goInnerEntries es av m

/-- Finds the first entry at the action value (JS objects have unique keys)
and recurses into it with `findReducer`; the result is compacted to a list. -/
def goInnerEntries : REntries → String → ActionMap → Except JErr (List Nat)
  | .nil, _, _ => .ok []
  | .cons k t rest, av, m =>
    if k = av then
      match findReducer t (some m) with
      | .error e => .error e
      | .ok r => .ok r.toList
    else goInnerEntries rest av m

end

/-- Top-level `findReducer` allowing an `undefined`/`null` tree: lodash's
`_.keys(_.omitBy(...))` treats those exactly like an empty object. -/
def findReducerJS (t : Option RTree) (a : Option ActionMap) : Except JErr (Option Nat) :=
  findReducer (t.getD (.obj .nil)) a

mutual

/-- Specification-side reading of the tree-dispatch rule ("a leaf matches the
action"): the leaves reachable from a node by repeatedly following a key
shared by node and action into the sub-node's entry at the action's value, in
key order.  `findReducer` is proved to return the unique element of this list,
`undefined` when it is empty, and to throw when it has two or more elements. -/
def matchingLeaves : RTree → ActionMap → List Nat
  | .func i, _ => [i]
  | .obj es, m => leavesEntries es m

/-- Matching leaves contributed by a node's entries, in key order. -/
def leavesEntries : REntries → ActionMap → List Nat
  | .nil, _ => []
  | .cons k sub rest, m =>
    (match m.lookup k with
     | none => []
     | some av => leavesInner sub av m) ++ leavesEntries rest m

/-- Matching leaves below `sub[av]`. -/
def leavesInner : RTree → String → ActionMap → List Nat
  | .func _, _, _ => []
  | .obj es, av, m => leavesInnerEntries es av m

/-- Matching leaves below the first entry at the action value. -/
def leavesInnerEntries : REntries → String → ActionMap → List Nat
  | .nil, _, _ => []
  | .cons k t rest, av, m =>
    if k = av then matchingLeaves t m else leavesInnerEntries rest av m

end

theorem headD_toList_of_le_one {l : List Nat} (h : l.length ≤ 1) : l.head?.toList = l := by
  cases l with
  | nil => rfl
  | cons a rest => cases rest with
    | nil => rfl
    | cons b r => simp at h

mutual

theorem findReducer_eq (t : RTree) (m : ActionMap) :
    (findReducer t (some m) = .ok (matchingLeaves t m).head? ∧ (matchingLeaves t m).length ≤ 1)
    ∨ (findReducer t (some m) = .error .ambiguous ∧ 2 ≤ (matchingLeaves t m).length) := by
  cases t with
  | func i => left; exact ⟨rfl, by simp [matchingLeaves]⟩
  | obj es =>
    have hq := goEntries_eq es m
    rcases hq with hok | ⟨herr, hlen⟩
    · by_cases hlen : 1 < (leavesEntries es m).length
      · right
        refine ⟨?_, by simpa [matchingLeaves] using hlen⟩
        simp only [findReducer]
        rw [hok]
        simp [hlen]
      · left
        refine ⟨?_, by simp [matchingLeaves]; omega⟩
        simp only [findReducer]
        rw [hok]
        simp [hlen, matchingLeaves]
    · right
      refine ⟨?_, by simpa [matchingLeaves] using hlen⟩
      simp only [findReducer]
      rw [herr]

theorem goEntries_eq (es : REntries) (m : ActionMap) :
    (goEntries es m = .ok (leavesEntries es m))
    ∨ (goEntries es m = .error .ambiguous ∧ 2 ≤ (leavesEntries es m).length) := by
  cases es with
  | nil => left; rfl
  | cons k sub rest =>
    have hrest := goEntries_eq rest m
    cases hlk : m.lookup k with
    | none =>
      rcases hrest with hok | ⟨herr, hlen⟩
      · left; simp [goEntries, leavesEntries, hlk, hok]
      · right; simp [goEntries, leavesEntries, hlk, herr, hlen]
    | some av =>
      have hinner := goInner_eq sub av m
      rcases hinner with hok1 | ⟨herr1, hlen1⟩
      · rcases hrest with hok2 | ⟨herr2, hlen2⟩
        · left; simp [goEntries, leavesEntries, hlk, hok1, hok2]
        · right
          refine ⟨?_, ?_⟩
          · simp [goEntries, hlk, hok1, herr2]
          · simp [leavesEntries, hlk]; omega
      · right
        refine ⟨?_, ?_⟩
        · simp [goEntries, hlk, herr1]
        · simp [leavesEntries, hlk]; omega

theorem goInner_eq (t : RTree) (av : String) (m : ActionMap) :
    (goInner t av m = .ok (leavesInner t av m))
    ∨ (goInner t av m = .error .ambiguous ∧ 2 ≤ (leavesInner t av m).length) := by
  cases t with
  | func i => left; rfl
  | obj es =>
    have h := goInnerEntries_eq es av m
    rcases h with hok | ⟨herr, hlen⟩
    · left; simpa [goInner, leavesInner] using hok
    · right; exact ⟨by simpa [goInner] using herr, by simpa [leavesInner] using hlen⟩

theorem goInnerEntries_eq (es : REntries) (av : String) (m : ActionMap) :
    (goInnerEntries es av m = .ok (leavesInnerEntries es av m))
    ∨ (goInnerEntries es av m = .error .ambiguous ∧ 2 ≤ (leavesInnerEntries es av m).length) := by
  cases es with
  | nil => left; rfl
  | cons k t rest =>
    by_cases hk : k = av
    · have h := findReducer_eq t m
      rcases h with ⟨hok, hlen⟩ | ⟨herr, hlen⟩
      · left
        simp [goInnerEntries, leavesInnerEntries, hk, hok]
        exact headD_toList_of_le_one hlen
      · right
        exact ⟨by simp [goInnerEntries, hk, herr], by simpa [leavesInnerEntries, hk] using hlen⟩
    · have h := goInnerEntries_eq rest av m
      rcases h with hok | ⟨herr, hlen⟩
      · left; simp [goInnerEntries, leavesInnerEntries, hk, hok]
      · right; exact ⟨by simp [goInnerEntries, hk, herr], by simpa [leavesInnerEntries, hk] using hlen⟩

end

/-- `findReducer` on an object action, characterised through the matching-leaf
list: an ambiguity error for two or more matching leaves, otherwise the
(optional) unique matching leaf. -/
theorem findReducer_matchingLeaves (t : RTree) (m : ActionMap) :
    findReducer t (some m) =
      if 2 ≤ (matchingLeaves t m).length then .error .ambiguous
      else .ok (matchingLeaves t m).head? := by
  rcases findReducer_eq t m with ⟨h, hl⟩ | ⟨h, hl⟩
  · rw [h, if_neg (by omega)]
  · rw [h, if_pos hl]

/-- C1: for every condition `c`, transform `t` and argument list `args`, the
Matcher `M = match(c).with(t)` satisfies `M(...args) = t(...args)` when
`c(...args)` is truthy and `M(...args) = args[0]` (the first argument,
unchanged) when `c(...args)` is falsy. -/
theorem matcher_with_semantics (c t : JFun) (args : List JVal) :
    ∃ M, matchM (CondVal.fn c) = .ok M ∧
      matcherCall (matcherWith M t) args =
        (if truthy (c args) then t args else args.headD .undefined) := by
  refine ⟨_, rfl, ?_⟩
  by_cases h : truthy (c args) <;>
    simp [matcherCall, matcherWith, matchM, jsIdentity, h]

/-- C2: `first(M1,...,Mn)(args)` invokes, with the same call arguments, the
reducer of the Matcher at the smallest index whose condition is truthy
(returning its value), returns `args[0]` when no condition is truthy, and —
per the instrumented model `findM` of `R.find`'s left-to-right traversal —
evaluates exactly the conditions up to and including the first match, never
one beyond it. -/
theorem first_semantics (ms : List Matcher) (args : List JVal) :
    (∀ i m, (findM ms args).1 = some (i, m) →
      matcherCall (matchFirst ms) args = m.reducer args ∧
      ms[i]? = some m ∧ truthy (m.condition args) = true ∧
      (∀ j, j < i → ∃ mj, ms[j]? = some mj ∧ truthy (mj.condition args) = false) ∧
      (findM ms args).2 = i + 1) ∧
    ((findM ms args).1 = none →
      matcherCall (matchFirst ms) args = args.headD .undefined ∧
      ∀ m ∈ ms, truthy (m.condition args) = false) := by
  constructor
  · intro i m h
    obtain ⟨hget, htrue, hbefore, hcount⟩ := findM_index_spec ms args i m h
    refine ⟨?_, hget, htrue, hbefore, hcount⟩
    have hfind : ms.find? (fun m => truthy (m.condition args)) = some m := by
      rw [← findM_fst_eq_find?, h]; rfl
    have h1 : matcherCall (matchFirst ms) args = firstTransform ms args := rfl
    rw [h1]
    simp only [firstTransform]
    rw [hfind]
    simp [matcherCall, htrue]
  · intro h
    have hfind : ms.find? (fun m => truthy (m.condition args)) = none := by
      rw [← findM_fst_eq_find?, h]; rfl
    refine ⟨?_, findM_none_spec ms args h⟩
    have h1 : matcherCall (matchFirst ms) args = firstTransform ms args := rfl
    rw [h1]
    simp only [firstTransform]
    rw [hfind]

theorem first_semantics_witness :
    matcherCall (matchFirst
      [{ condition := fun _ => JVal.bool false, reducer := fun _ => JVal.num 1 },
       { condition := fun _ => JVal.bool true, reducer := fun _ => JVal.num 7 }])
      [JVal.num 5] = JVal.num 7 :=
  ((first_semantics
      [{ condition := fun _ => JVal.bool false, reducer := fun _ => JVal.num 1 },
       { condition := fun _ => JVal.bool true, reducer := fun _ => JVal.num 7 }]
      [JVal.num 5]).1 1
    { condition := fun _ => JVal.bool true, reducer := fun _ => JVal.num 7 } rfl).1

/-- C3 counterexample: the claim says a plain structural object is a valid
condition for `match`, but `match`'s precondition (`must(util.isFunction, …)`)
rejects everything that is not a function — `match({})` throws (as
`test/reducer.test.js` asserts). -/
theorem match_plain_object_throws :
    matchM (CondVal.val (JVal.obj [])) = .error () := rfl

/-- C3 (amended): `match(c)` throws `InvalidCondition` exactly when `c` is not
a function; a function condition yields, without throwing and already at
construction time, a Matcher with that condition and the identity default
reducer. -/
theorem match_condition_validation :
    (∀ f, matchM (CondVal.fn f) = .ok { condition := f, reducer := jsIdentity }) ∧
    (∀ v, matchM (CondVal.val v) = .error ()) :=
  ⟨fun _ => rfl, fun _ => rfl⟩

/-- The §8 calibration tree `{type:{A:fnA}, other:{C:{type:{B:fnB}}}}` with
`fnA` as leaf `0` and `fnB` as leaf `1`. -/
def treeC4 : RTree :=
  .obj (.cons "type" (.obj (.cons "A" (.func 0) .nil))
    (.cons "other" (.obj (.cons "C" (.obj (.cons "type" (.obj (.cons "B" (.func 1) .nil)) .nil)) .nil))
      .nil))

/-- The action `{type:'A', other:'C'}` of the §8 calibration test. -/
def actC4 : ActionMap := [("type", "A"), ("other", "C")]

/-- C4: for every tree and object action, `findReducer` returns the unique
matching leaf when exactly one leaf matches, the distinguished no-match value
(`undefined`, here `Except.ok none`) when none matches, and throws the
ambiguity error when two or more match; and on the calibration tree
`{type:{A:fnA}, other:{C:{type:{B:fnB}}}}` with action
`{type:'A', other:'C'}` it returns `fnA`. -/
theorem findReducer_dispatch :
    (∀ t m,
      (matchingLeaves t m = [] → findReducer t (some m) = .ok none) ∧
      (∀ i, matchingLeaves t m = [i] → findReducer t (some m) = .ok (some i)) ∧
      (2 ≤ (matchingLeaves t m).length → findReducer t (some m) = .error .ambiguous)) ∧
    findReducer treeC4 (some actC4) = .ok (some 0) := by
  refine ⟨fun t m => ?_, rfl⟩
  have h := findReducer_matchingLeaves t m
  refine ⟨fun he => ?_, fun i he => ?_, fun hl => ?_⟩
  · rw [h, he]; simp
  · rw [h, he]; simp
  · rw [h, if_pos hl]

theorem findReducer_dispatch_witness :
    findReducer treeC4 (some actC4) = .ok (some 0) :=
  (findReducer_dispatch.1 treeC4 actC4).2.1 0 rfl

/-- C5: `match.redux(c).with(t1,…,tn)` evaluates the outer condition against
the action (the second call argument) only; when it is falsy the call returns
the state unchanged (for every transform list), and when it is truthy the
result is `first(T1,…,Tn)(state, action)` where each plain function is
promoted via `always` and each Matcher is kept as is (`convertToMatcher`). -/
theorem redux_with_semantics (c : SCond) (ts : List TransformOrMatcher)
    (state action : JVal) :
    ((reduxWith c ts).condition = fun args => shape c (args.getD 1 .undefined)) ∧
    matcherCall (reduxWith c ts) [state, action] =
      (if truthy (shape c action) then
        matcherCall (matchFirst (ts.map convertToMatcher)) [state, action]
      else state) := by
  refine ⟨rfl, ?_⟩
  by_cases h : truthy (shape c action) <;>
    simp [matcherCall, reduxWith, matcherWith, reduxMatcher, actionCondition,
      getMatcherFromReducers, jsIdentity, h]

/-- C6: `combineReducers` throws on a falsy mapping; otherwise each
`mapping[key]` is invoked with `(state && state[key], action, state)` — the
third argument the entire top-level state — and the result object has exactly
the mapping's keys (input-state keys outside the mapping are dropped).  The
last conjunct is the spec's concrete example:
`combineReducers({A:(s,a,whole)=>whole})({A:1,B:2},'act').A = {A:1,B:2}`. -/
theorem combineReducers_semantics :
    combineReducers none = .error () ∧
    (∀ m s a, ∃ f, combineReducers (some m) = .ok f ∧
      f s a = .obj (m.map fun p => (p.1, p.2 (jand s (jget s p.1)) a s)) ∧
      jkeys (f s a) = m.map Prod.fst) ∧
    (∃ f, combineReducers (some [("A", fun _ _ whole => whole)]) = .ok f ∧
      jget (f (.obj [("A", .num 1), ("B", .num 2)]) (.str "act")) "A"
        = .obj [("A", .num 1), ("B", .num 2)]) := by
  refine ⟨rfl, fun m s a => ⟨_, rfl, rfl, ?_⟩, ⟨_, rfl, rfl⟩⟩
  simp [jkeys]

/-- C7: `withDefault(d)(M)` returns `d` whenever the first argument is
`undefined` — for every Matcher `M`, hence without consulting `M`'s condition
or transform — and otherwise delegates the whole call to `M`. -/
theorem withDefault_semantics (d : JVal) (M : Matcher) (rest : List JVal) :
    withDefault d M (JVal.undefined :: rest) = d ∧
    ∀ x, isUndefined x = false → withDefault d M (x :: rest) = matcherCall M (x :: rest) := by
  refine ⟨by simp [withDefault, isUndefined], fun x hx => by simp [withDefault, hx]⟩

theorem withDefault_semantics_witness :
    withDefault (JVal.num 3)
      { condition := fun _ => JVal.bool true, reducer := fun _ => JVal.num 9 }
      [JVal.undefined] = JVal.num 3 ∧
    withDefault (JVal.num 3)
      { condition := fun _ => JVal.bool true, reducer := fun _ => JVal.num 9 }
      [JVal.num 5] =
      matcherCall { condition := fun _ => JVal.bool true, reducer := fun _ => JVal.num 9 }
        [JVal.num 5] :=
  ⟨(withDefault_semantics (JVal.num 3) _ []).1,
   (withDefault_semantics (JVal.num 3) _ []).2 (JVal.num 5) rfl⟩

/-- The action shape `{a:1, b:2}` of the C8 example. -/
def specC8 : List (String × JVal) := [("a", .num 1), ("b", .num 2)]

/-- C8: the Matcher `plainAction({a:1,b:2}).with(t)` called with
`(state, action)` invokes `t` exactly when the action's key `a` equals `1`
and key `b` equals `2` (extra keys on the action ignored); in particular the
actions `{a:1,b:2}` and `{a:1,b:2,c:3}` match, while `{a:1}` and `{a:1,b:3}`
do not and the state is returned unchanged. -/
theorem plainAction_semantics (t : JFun) (state : JVal) :
    (∀ fields, matcherCall (matcherWith (plainAction specC8) t) [state, .obj fields] =
      (if jeq (jget (.obj fields) "a") (.num 1) && jeq (jget (.obj fields) "b") (.num 2)
       then t [state, .obj fields] else state)) ∧
    matcherCall (matcherWith (plainAction specC8) t)
      [state, .obj [("a", .num 1), ("b", .num 2)]]
      = t [state, .obj [("a", .num 1), ("b", .num 2)]] ∧
    matcherCall (matcherWith (plainAction specC8) t)
      [state, .obj [("a", .num 1), ("b", .num 2), ("c", .num 3)]]
      = t [state, .obj [("a", .num 1), ("b", .num 2), ("c", .num 3)]] ∧
    matcherCall (matcherWith (plainAction specC8) t) [state, .obj [("a", .num 1)]] = state ∧
    matcherCall (matcherWith (plainAction specC8) t)
      [state, .obj [("a", .num 1), ("b", .num 3)]] = state := by
  have hgen : ∀ fields, matcherCall (matcherWith (plainAction specC8) t) [state, .obj fields] =
      (if jeq (jget (.obj fields) "a") (.num 1) && jeq (jget (.obj fields) "b") (.num 2)
       then t [state, .obj fields] else state) := by
    intro fields
    by_cases ha : jeq (jget (.obj fields) "a") (.num 1) &&
        jeq (jget (.obj fields) "b") (.num 2) <;>
      simp [matcherCall, matcherWith, plainAction, plainActionCondition, whereEq,
        specC8, truthy, jsIdentity, ha]
  exact ⟨hgen, rfl, rfl, rfl, rfl⟩

/-- C9: `.with(t)` on a Matcher returns a new Matcher with the same condition
and the new transform; the original Matcher is a pure value that keeps its
own behaviour (in particular a `match(c)` Matcher keeps the identity default:
it always returns its first argument), and nothing is mutated — the embedding
is purely functional, so the original and its condition are unchanged by
construction. -/
theorem matcher_with_functional_update (M : Matcher) (t : JFun) :
    (matcherWith M t).condition = M.condition ∧
    (matcherWith M t).reducer = t ∧
    (∀ args, matcherCall M args =
      if truthy (M.condition args) then M.reducer args else args.headD .undefined) ∧
    (∀ f args, matcherCall { condition := f, reducer := jsIdentity } args =
      args.headD .undefined) := by
  refine ⟨rfl, rfl, fun args => rfl, fun f args => ?_⟩
  unfold matcherCall jsIdentity
  split <;> rfl

/-- The ambiguous tree `{foo:{bar:f0}, baz:{something:f1}}` of the JS test
suite, whose action `{foo:'bar', baz:'something'}` matches two leaves. -/
def treeAmb : RTree :=
  .obj (.cons "foo" (.obj (.cons "bar" (.func 0) .nil))
    (.cons "baz" (.obj (.cons "something" (.func 1) .nil)) .nil))

/-- The action `{foo:'bar', baz:'something'}`. -/
def actAmb : ActionMap := [("foo", "bar"), ("baz", "something")]

/-- C10 counterexample: with an `undefined` action, a non-function node with
at least one key makes `findReducer` throw a TypeError (`action[key]` reads a
property of `undefined`) even though no leaf matches — not the `undefined`
result the claim requires, and not an ambiguity error. -/
theorem findReducer_undefined_action_throws :
    findReducer (.obj (.cons "foo" (.obj (.cons "bar" (.func 0) .nil)) .nil)) none
      = .error .typeError ∧
    findReducer (.obj (.cons "foo" (.obj (.cons "bar" (.func 0) .nil)) .nil)) none
      ≠ .ok none := by
  exact ⟨rfl, fun h => Except.noConfusion h⟩

/-- C10 (amended): for every *object* action `findReducer` throws only the
ambiguity error (and only when two or more leaves match); `undefined`/`null`
and empty-object trees return `undefined` for every action; but with an
`undefined` action a non-function node with at least one key throws a
TypeError. -/
theorem findReducer_error_characterisation :
    (∀ t m e, findReducer t (some m) = .error e →
      e = .ambiguous ∧ 2 ≤ (matchingLeaves t m).length) ∧
    (∀ a, findReducerJS none a = .ok none) ∧
    (∀ a, findReducer (.obj .nil) a = .ok none) ∧
    (∀ k sub rest, findReducer (.obj (.cons k sub rest)) none = .error .typeError) := by
  refine ⟨fun t m e he => ?_, fun a => ?_, fun a => ?_, fun k sub rest => rfl⟩
  · rcases findReducer_eq t m with ⟨hok, _⟩ | ⟨herr, hlen⟩
    · rw [hok] at he; exact absurd he (by simp)
    · rw [herr] at he
      exact ⟨(Except.error.inj he).symm, hlen⟩
  · cases a with
    | none => rfl
    | some m => simp [findReducerJS, findReducer, goEntries]
  · cases a with
    | none => rfl
    | some m => simp [findReducer, goEntries]

theorem findReducer_error_characterisation_witness :
    JErr.ambiguous = JErr.ambiguous ∧ 2 ≤ (matchingLeaves treeAmb actAmb).length :=
  findReducer_error_characterisation.1 treeAmb actAmb .ambiguous rfl
